import Mathlib

/-!
# Page combiner (`combiner.go`)

A shallow embedding of `combiner.go`: the program scans `index.html` line by
line, replaces the stylesheet and script marker lines by the inlined asset
files, writes the result to `./singlepage.html` and prints the line count.

Go strings are byte sequences.  They are embedded as `List Char`, one `Char`
per byte; every constant of the program is ASCII.  `panic` is embedded as an
error result, and every call that touches the outside world is recorded,
together with its result, in an event log that is threaded through the
program.
-/

namespace Combiner

/-! ## Strings -/

/-- A Go `string`: a sequence of bytes, one `Char` per byte. -/
abbrev GoString := List Char

/-- The byte `0x0A`, the string `"\n"` of the source being `[newline]`. -/
def newline : Char := Char.ofNat 10

/-- Go's `strings.Contains(s, substr)`: `substr` is a prefix of some suffix of `s`. -/
def stringsContains : GoString → GoString → Bool
  | [], substr => substr.isPrefixOf []
  | c :: cs, substr => substr.isPrefixOf (c :: cs) || stringsContains cs substr

/-- Go's `strings.Split(s, sep)` for a one-byte separator `sep`: the pieces of
`s` between the occurrences of `sep`, always at least one piece. -/
def stringsSplit (sep : Char) : GoString → List GoString
  | [] => [[]]
  | c :: cs =>
    if c = sep then [] :: stringsSplit sep cs
    else
      match stringsSplit sep cs with
      | [] => [[c]]
      | piece :: pieces => (c :: piece) :: pieces

/-- Go's `strings.Join(elems, sep)` for a one-byte separator. -/
def stringsJoin (sep : Char) : List GoString → GoString
  | [] => []
  | [piece] => piece
  | piece :: next :: pieces => piece ++ sep :: stringsJoin sep (next :: pieces)

/-- Go's `strings.Count(s, sep)` for a one-byte separator. -/
def stringsCount (sep : Char) (s : GoString) : Nat := s.count sep

/-! ## Constants (`combiner.go`, lines 12-21) -/

def indexFilename : GoString := "index.html".toList
def styleFilename : GoString := "style.css".toList
def scriptFilename : GoString := "script.js".toList

def outputFilename : GoString := "./singlepage.html".toList

def styleLinkTag : GoString :=
  "<link rel=\"stylesheet\" href=\"".toList ++ styleFilename ++ "\" />".toList
def scriptTag : GoString :=
  "<script src=\"".toList ++ scriptFilename ++ "\"></script>".toList

/-- The literal `"\t\t<style type=\"text/css\">"` of line 65. -/
def styleOpen : GoString := "\t\t<style type=\"text/css\">".toList
/-- The literal `"\t\t</style>"` of line 67. -/
def styleClose : GoString := "\t\t</style>".toList
/-- The literal `"\t\t<script>"` of line 69. -/
def scriptOpen : GoString := "\t\t<script>".toList
/-- The literal `"\t\t</script>"` of line 71. -/
def scriptClose : GoString := "\t\t</script>".toList

/-! ## The outside world -/

/-- The `error` values the run can meet. -/
inductive GoError
  | errNotExist
  | errPermission
  | errTooLong
  | errNoSpace
  deriving DecidableEq, Repr

/-- What the outside world answers to the calls of one run. -/
structure Env where
  /-- The error of `os.Open(indexFilename)`, `none` when the file opens. -/
  openErr : Option GoError
  /-- The tokens of the successive `fileScanner.Scan()` calls that return
  `true`, in order. -/
  scanned : List GoString
  /-- The value of `fileScanner.Err()` once `Scan()` has returned `false`. -/
  scanErr : Option GoError
  /-- The pair `(data, err)` returned by `os.ReadFile(filename)`. -/
  readFile : GoString → GoString × Option GoError
  /-- The error of `os.Create(outputFilename)`, `none` when it succeeds. -/
  createErr : Option GoError
  /-- The error of the `k`-th `writer.WriteString` call, counted from 0. -/
  writeErr : Nat → Option GoError
  /-- The error of `writer.Flush()`. -/
  flushErr : Option GoError

/-- One call to the outside world, with its result. -/
inductive Event
  | osOpen (name : GoString) (err : Option GoError)
  | scanEnd (err : Option GoError)
  | readFile (name : GoString) (err : Option GoError)
  | create (name : GoString) (err : Option GoError)
  | writeString (s : GoString) (err : Option GoError)
  | flush (err : Option GoError)
  | close (name : GoString)
  | printf (s : GoString)
  deriving DecidableEq, Repr

/-- The outcome of a run: the calls made, and the value the process panicked
with, `none` when `main` returned normally. -/
structure Run where
  log : List Event
  panicked : Option GoError
  deriving DecidableEq, Repr

/-! ## The program -/

/-- The function `check` (lines 23-27): `panic(e)` when `e != nil`. -/
def check (e : Option GoError) : Except GoError Unit :=
  match e with
  | some err => .error err
  | none => .ok ()

/-- The function `concatFileContent` (lines 29-34): `check(err)` panics with
the error of `os.ReadFile`. -/
def concatFileContent (env : Env) (lines : List GoString) (filename : GoString)
    (log : List Event) : List Event × Except GoError (List GoString) :=
  match env.readFile filename with
  | (fileLines, err) =>
    match check err with
    | .error e => (log ++ [Event.readFile filename err], .error e)
    | .ok _ =>
      (log ++ [Event.readFile filename err], .ok (lines ++ stringsSplit newline fileLines))

/-- The loop of `main` (lines 62-75) over the tokens still to come from the
scanner; `lines` is the slice built so far. -/
def scanLoop (env : Env) :
    List GoString → List GoString → List Event → List Event × Except GoError (List GoString)
  | [], lines, log => (log, .ok lines)
  | line :: rest, lines, log =>
    if stringsContains line styleLinkTag then
      match concatFileContent env (lines ++ [styleOpen]) styleFilename log with
      | (log, .error e) => (log, .error e)
      | (log, .ok lines) => scanLoop env rest (lines ++ [styleClose]) log
    else if stringsContains line scriptTag then
      match concatFileContent env (lines ++ [scriptOpen]) scriptFilename log with
      | (log, .error e) => (log, .error e)
      | (log, .ok lines) => scanLoop env rest (lines ++ [scriptClose]) log
    else
      scanLoop env rest (lines ++ [line]) log

/-- The loop of `writeCombinedFile` (lines 43-46); `k` counts the
`WriteString` calls already made. -/
def writeLoop (env : Env) :
    List GoString → Nat → List Event → List Event × Except GoError Unit
  | [], _, log => (log, .ok ())
  | line :: rest, k, log =>
    match check (env.writeErr k) with
    | .error e => (log ++ [Event.writeString (line ++ [newline]) (env.writeErr k)], .error e)
    | .ok _ =>
      writeLoop env rest (k + 1) (log ++ [Event.writeString (line ++ [newline]) (env.writeErr k)])

/-- The function `writeCombinedFile` (lines 36-50).  The deferred `Close` runs
on every exit after `os.Create` succeeded; the result of `writer.Flush()` is
discarded (line 48). -/
def writeCombinedFile (env : Env) (lines : List GoString) (log : List Event) :
    List Event × Except GoError Int :=
  match check env.createErr with
  | .error e => (log ++ [Event.create outputFilename env.createErr], .error e)
  | .ok _ =>
    match writeLoop env lines 0 (log ++ [Event.create outputFilename env.createErr]) with
    | (log, .error e) => (log ++ [Event.close outputFilename], .error e)
    | (log, .ok ()) =>
      (log ++ [Event.flush env.flushErr, Event.close outputFilename], .ok 1)

/-- The text printed by line 79,
`fmt.Printf("TimeDiff Combiner: Wrote %d lines to %s\n", n, outputFilename)`. -/
def report (n : Nat) : GoString :=
  "TimeDiff Combiner: Wrote ".toList ++ (Nat.repr n).toList ++ " lines to ".toList
    ++ outputFilename ++ [newline]

/-- The function `main` (lines 52-80).  The error of the scanner is never asked
for: the loop ends when `Scan()` returns `false`, whatever the reason. -/
def main (env : Env) : Run :=
  match check env.openErr with
  | .error e => ⟨[Event.osOpen indexFilename env.openErr], some e⟩
  | .ok _ =>
    match scanLoop env env.scanned [] [Event.osOpen indexFilename env.openErr] with
    | (log, .error e) => ⟨log ++ [Event.close indexFilename], some e⟩
    | (log, .ok lines) =>
      match writeCombinedFile env lines (log ++ [Event.scanEnd env.scanErr]) with
      | (log, .error e) => ⟨log ++ [Event.close indexFilename], some e⟩
      | (log, .ok _) =>
        ⟨log ++ [Event.printf (report lines.length), Event.close indexFilename], none⟩

/-! ## Observations on runs, the wording of the specification, and sample worlds -/

/-- The wording of the specification: what one source line contributes to the
output, given the contents `css` of the stylesheet and `js` of the script. -/
def expandLine (css js line : GoString) : List GoString :=
  if stringsContains line styleLinkTag then
    [styleOpen] ++ stringsSplit newline css ++ [styleClose]
  else if stringsContains line scriptTag then
    [scriptOpen] ++ stringsSplit newline js ++ [scriptClose]
  else [line]

/-- The `os.ReadFile` calls the scan loop makes for the given source lines. -/
def readsOf : List GoString → List Event
  | [] => []
  | line :: rest =>
    if stringsContains line styleLinkTag then Event.readFile styleFilename none :: readsOf rest
    else if stringsContains line scriptTag then Event.readFile scriptFilename none :: readsOf rest
    else readsOf rest

/-- A line is a marker line when it contains one of the two tags. -/
def isMarker (line : GoString) : Bool :=
  stringsContains line styleLinkTag || stringsContains line scriptTag

/-- The `WriteString` calls that write the given lines, all of them accepted. -/
def writesOf (lines : List GoString) : List Event :=
  lines.map (fun line => Event.writeString (line ++ [newline]) none)

/-- The text handed to the buffered writer by the accepted `WriteString`
calls of a log, in order. -/
def writtenText : List Event → GoString
  | [] => []
  | Event.writeString s none :: rest => s ++ writtenText rest
  | _ :: rest => writtenText rest

/-- The text of the destination for the given lines: every line followed by
one newline. -/
def document (lines : List GoString) : GoString :=
  lines.flatMap (fun line => line ++ [newline])

/-- The calls that create, fill or close the destination file. -/
def touchesOutput : Event → Bool
  | Event.create _ _ => true
  | Event.writeString _ _ => true
  | Event.flush _ => true
  | Event.close name => name = outputFilename
  | _ => false

/-- The success line of `main`. -/
def isReport : Event → Bool
  | Event.printf _ => true
  | _ => false

/-- The text of every `WriteString` call of a log, accepted or not, in order. -/
def handedText : List Event → GoString
  | [] => []
  | Event.writeString s _ :: rest => s ++ handedText rest
  | _ :: rest => handedText rest

/-- What a run leaves of the destination file: `untouched` when it is as
before the run, `whole text` when it holds exactly `text`, `partly handed`
when it was created and holds a proper prefix of `handed`, the rest being
lost. -/
inductive Destination
  | untouched
  | whole (text : GoString)
  | partly (handed : GoString)
  deriving DecidableEq, Repr

/-- The destination after a run of `main` with the given log.  Only a
successful `os.Create` touches the file, and it empties it.  The buffered
writer passes the text it is handed on to the file in order; a `Flush` that
returns `nil` has passed on every byte, and a `WriteString` or `Flush` that
returns an error has passed on fewer bytes than it was handed.  A log of
`main` holds a `Flush` only after every `WriteString` was accepted. -/
def destination (log : List Event) : Destination :=
  if Event.create outputFilename none ∈ log then
    if Event.flush none ∈ log then Destination.whole (handedText log)
    else Destination.partly (handedText log)
  else Destination.untouched

/-- The error of a call whose result the program hands to `check`: `os.Open`,
`os.ReadFile`, `os.Create` and `WriteString`.  The results of `Scan` and
`Flush` are not handed to `check`. -/
def checkedError : Event → Option GoError
  | Event.osOpen _ err => err
  | Event.readFile _ err => err
  | Event.create _ err => err
  | Event.writeString _ err => err
  | _ => none

/-- The answers of `os.ReadFile` in a directory where `style.css` and
`script.js` give `css` and `js`, and no other file exists. -/
def assets (css js : GoString × Option GoError) (name : GoString) :
    GoString × Option GoError :=
  if name = styleFilename then css
  else if name = scriptFilename then js
  else ([], some GoError.errNotExist)

/-- A world in which `index.html` scans to `scanned`, the assets read as
given, and no other call fails. -/
def quietEnv (scanned : List GoString) (css js : GoString × Option GoError) : Env where
  openErr := none
  scanned := scanned
  scanErr := none
  readFile := assets css js
  createErr := none
  writeErr := fun _ => none
  flushErr := none

/-- The five lines of the base document of the scenario. -/
def scenarioLines : List GoString :=
  ["<html><head>".toList,
   "<link rel=\"stylesheet\" href=\"style.css\" />".toList,
   "</head><body>".toList,
   "<script src=\"script.js\"></script>".toList,
   "</body></html>".toList]

/-- The content of `style.css` in the scenario. -/
def scenarioCss : GoString := "body \x7b color: red; \x7d".toList

/-- The content of `script.js` in the scenario. -/
def scenarioJs : GoString := "alert(\x27hi\x27);".toList

def scenarioEnv : Env := quietEnv scenarioLines (scenarioCss, none) (scenarioJs, none)

/-- The nine lines the specification expects for the scenario. -/
def scenarioOutput : List GoString :=
  ["<html><head>".toList,
   "\t\t<style type=\"text/css\">".toList,
   "body \x7b color: red; \x7d".toList,
   "\t\t</style>".toList,
   "</head><body>".toList,
   "\t\t<script>".toList,
   "alert(\x27hi\x27);".toList,
   "\t\t</script>".toList,
   "</body></html>".toList]

/-- The scenario of the specification on a disk that fills up: every
`WriteString` is buffered and accepted, and `Flush` fails. -/
def flushFailsEnv : Env := { scenarioEnv with flushErr := some GoError.errNoSpace }

/-- A base document whose second line is longer than the scanner's buffer:
`Scan()` yields the first line and then returns `false` with
`bufio.ErrTooLong` pending. -/
def scanFailsEnv : Env :=
  { quietEnv ["<html><head>".toList] (scenarioCss, none) (scenarioJs, none) with
    scanErr := some GoError.errTooLong }

/-! ## Facts about the string functions -/

theorem stringsContains_iff (s substr : GoString) :
    stringsContains s substr = true ↔ substr <:+: s := by
  induction s with
  | nil =>
    simp [stringsContains]
  | cons c cs ih =>
    simp only [stringsContains, Bool.or_eq_true, ih, List.isPrefixOf_iff_prefix]
    rw [List.infix_cons_iff]

theorem stringsSplit_ne_nil (sep : Char) (s : GoString) : stringsSplit sep s ≠ [] := by
  cases s with
  | nil => simp [stringsSplit]
  | cons c cs =>
    unfold stringsSplit
    split
    · simp
    · split <;> simp

theorem stringsSplit_cons_sep (sep : Char) (cs : GoString) :
    stringsSplit sep (sep :: cs) = [] :: stringsSplit sep cs := by
  simp [stringsSplit]

theorem stringsSplit_cons_ne (sep c : Char) (cs piece : GoString) (pieces : List GoString)
    (hc : c ≠ sep) (h : stringsSplit sep cs = piece :: pieces) :
    stringsSplit sep (c :: cs) = (c :: piece) :: pieces := by
  simp [stringsSplit, hc, h]

theorem stringsSplit_exists (sep : Char) (s : GoString) :
    ∃ piece pieces, stringsSplit sep s = piece :: pieces := by
  cases h : stringsSplit sep s with
  | nil => exact absurd h (stringsSplit_ne_nil sep s)
  | cons p ps => exact ⟨p, ps, rfl⟩

theorem stringsJoin_cons (sep : Char) (piece : GoString) (pieces : List GoString)
    (h : pieces ≠ []) :
    stringsJoin sep (piece :: pieces) = piece ++ sep :: stringsJoin sep pieces := by
  cases pieces with
  | nil => exact absurd rfl h
  | cons q qs => rfl

theorem stringsJoin_stringsSplit (sep : Char) (s : GoString) :
    stringsJoin sep (stringsSplit sep s) = s := by
  induction s with
  | nil => rfl
  | cons c cs ih =>
    by_cases hc : c = sep
    · subst hc
      rw [stringsSplit_cons_sep, stringsJoin_cons _ _ _ (stringsSplit_ne_nil _ _), ih]
      rfl
    · obtain ⟨p, ps, hp⟩ := stringsSplit_exists sep cs
      rw [stringsSplit_cons_ne sep c cs p ps hc hp]
      rw [hp] at ih
      cases ps with
      | nil =>
        simp only [stringsJoin] at ih ⊢
        rw [ih]
      | cons q qs =>
        simp only [stringsJoin] at ih ⊢
        rw [← ih]
        rfl

theorem stringsSplit_length (sep : Char) (s : GoString) :
    (stringsSplit sep s).length = stringsCount sep s + 1 := by
  induction s with
  | nil => rfl
  | cons c cs ih =>
    by_cases hc : c = sep
    · subst hc
      simp [stringsSplit_cons_sep, ih, stringsCount]
    · obtain ⟨p, ps, hp⟩ := stringsSplit_exists sep cs
      rw [stringsSplit_cons_ne sep c cs p ps hc hp]
      rw [hp] at ih
      have hne : ¬ (c == sep) = true := by simpa using hc
      simp only [stringsCount, List.length_cons] at ih ⊢
      rw [List.count_cons, if_neg hne]
      omega

theorem stringsSplit_no_sep (sep : Char) (s : GoString) :
    ∀ piece ∈ stringsSplit sep s, sep ∉ piece := by
  induction s with
  | nil => simp [stringsSplit]
  | cons c cs ih =>
    by_cases hc : c = sep
    · subst hc
      intro piece hp
      rw [stringsSplit_cons_sep] at hp
      rcases List.mem_cons.mp hp with h | h
      · simp [h]
      · exact ih piece h
    · obtain ⟨p, ps, hp⟩ := stringsSplit_exists sep cs
      rw [stringsSplit_cons_ne sep c cs p ps hc hp]
      rw [hp] at ih
      intro piece hpiece
      rcases List.mem_cons.mp hpiece with h | h
      · subst h
        have := ih p (List.mem_cons_self _ _)
        simp only [List.mem_cons, not_or]
        exact ⟨fun h => hc h.symm, this⟩
      · exact ih piece (List.mem_cons_of_mem _ h)

theorem stringsSplit_append_sep (sep : Char) (s : GoString) :
    stringsSplit sep (s ++ [sep]) = stringsSplit sep s ++ [[]] := by
  induction s with
  | nil => simp [stringsSplit]
  | cons c cs ih =>
    by_cases hc : c = sep
    · subst hc
      simp only [List.cons_append, stringsSplit_cons_sep, ih]
    · obtain ⟨p, ps, hp⟩ := stringsSplit_exists sep cs
      rw [List.cons_append, stringsSplit_cons_ne sep c (cs ++ [sep]) p (ps ++ [[]]) hc (by rw [ih, hp]; rfl),
        stringsSplit_cons_ne sep c cs p ps hc hp]
      rfl

/-! ## The scan loop -/

theorem concatFileContent_ok (env : Env) (lines : List GoString) (name c : GoString)
    (log : List Event) (h : env.readFile name = (c, none)) :
    concatFileContent env lines name log
      = (log ++ [Event.readFile name none], .ok (lines ++ stringsSplit newline c)) := by
  simp [concatFileContent, h, check]

theorem concatFileContent_error (env : Env) (lines : List GoString) (name c : GoString)
    (e : GoError) (log : List Event) (h : env.readFile name = (c, some e)) :
    concatFileContent env lines name log
      = (log ++ [Event.readFile name (some e)], .error e) := by
  simp [concatFileContent, h, check]

theorem scanLoop_ok (env : Env) (css js : GoString)
    (hs : env.readFile styleFilename = (css, none)) (hj : env.readFile scriptFilename = (js, none))
    (src lines : List GoString) (log : List Event) :
    scanLoop env src lines log
      = (log ++ readsOf src, .ok (lines ++ src.flatMap (expandLine css js))) := by
  induction src generalizing lines log with
  | nil => simp [scanLoop, readsOf]
  | cons line rest ih =>
    by_cases h1 : stringsContains line styleLinkTag = true
    · simp [scanLoop, readsOf, expandLine, h1, concatFileContent_ok env _ _ _ _ hs, ih,
        List.flatMap_cons]
    · by_cases h2 : stringsContains line scriptTag = true
      · simp [scanLoop, readsOf, expandLine, h1, h2, concatFileContent_ok env _ _ _ _ hj, ih,
          List.flatMap_cons]
      · simp [scanLoop, readsOf, expandLine, h1, h2, ih, List.flatMap_cons]

theorem scanLoop_plain (env : Env) (src : List GoString)
    (h : ∀ l ∈ src, isMarker l = false) (lines : List GoString) (log : List Event) :
    scanLoop env src lines log = (log, .ok (lines ++ src)) := by
  induction src generalizing lines with
  | nil => simp [scanLoop]
  | cons line rest ih =>
    have hl := h line (List.mem_cons_self _ _)
    simp only [isMarker, Bool.or_eq_false_iff] at hl
    have hr : ∀ l ∈ rest, isMarker l = false := fun l hl => h l (List.mem_cons_of_mem _ hl)
    simp [scanLoop, hl.1, hl.2, ih hr]

theorem expandLine_plain (css js line : GoString) (h : isMarker line = false) :
    expandLine css js line = [line] := by
  simp only [isMarker, Bool.or_eq_false_iff] at h
  simp [expandLine, h.1, h.2]

theorem flatMap_expandLine_plain (css js : GoString) (src : List GoString)
    (h : ∀ l ∈ src, isMarker l = false) : src.flatMap (expandLine css js) = src := by
  induction src with
  | nil => rfl
  | cons line rest ih =>
    rw [List.flatMap_cons, expandLine_plain css js line (h line (List.mem_cons_self _ _)),
      ih (fun l hl => h l (List.mem_cons_of_mem _ hl))]
    rfl

/-- The scan loop never touches the log it is given and only adds
`os.ReadFile` calls to it. -/
theorem scanLoop_log (env : Env) (src lines : List GoString) (log : List Event) :
    ∃ added, (scanLoop env src lines log).1 = log ++ added
      ∧ ∀ ev ∈ added, ∃ name err, ev = Event.readFile name err := by
  induction src generalizing lines log with
  | nil => exact ⟨[], by simp [scanLoop]⟩
  | cons line rest ih =>
    unfold scanLoop
    by_cases h1 : stringsContains line styleLinkTag = true
    · simp only [h1, if_true]
      rcases hr : env.readFile styleFilename with ⟨c, _ | e⟩
      · rw [concatFileContent_ok env _ _ _ _ hr]
        obtain ⟨added, h, hall⟩ := ih (lines ++ [styleOpen] ++ stringsSplit newline c ++ [styleClose])
          (log ++ [Event.readFile styleFilename none])
        refine ⟨Event.readFile styleFilename none :: added, ?_, ?_⟩
        · simpa using h
        · intro ev hev
          rcases List.mem_cons.mp hev with h | h
          · exact ⟨_, _, h⟩
          · exact hall ev h
      · rw [concatFileContent_error env _ _ _ _ _ hr]
        exact ⟨[Event.readFile styleFilename (some e)], by simp⟩
    · simp only [h1, if_false, Bool.false_eq_true]
      by_cases h2 : stringsContains line scriptTag = true
      · simp only [h2, if_true]
        rcases hr : env.readFile scriptFilename with ⟨c, _ | e⟩
        · rw [concatFileContent_ok env _ _ _ _ hr]
          obtain ⟨added, h, hall⟩ := ih (lines ++ [scriptOpen] ++ stringsSplit newline c ++ [scriptClose])
            (log ++ [Event.readFile scriptFilename none])
          refine ⟨Event.readFile scriptFilename none :: added, ?_, ?_⟩
          · simpa using h
          · intro ev hev
            rcases List.mem_cons.mp hev with h | h
            · exact ⟨_, _, h⟩
            · exact hall ev h
        · rw [concatFileContent_error env _ _ _ _ _ hr]
          exact ⟨[Event.readFile scriptFilename (some e)], by simp⟩
      · simp only [h2, if_false, Bool.false_eq_true]
        exact ih _ _

/-- The scan loop panics as soon as a marker line meets an unreadable asset. -/
theorem scanLoop_fails (env : Env) (src : List GoString)
    (h : (∃ l ∈ src, stringsContains l styleLinkTag = true ∧
            ∃ e, (env.readFile styleFilename).2 = some e)
        ∨ (∃ l ∈ src, stringsContains l styleLinkTag = false ∧ stringsContains l scriptTag = true ∧
            ∃ e, (env.readFile scriptFilename).2 = some e))
    (lines : List GoString) (log : List Event) :
    ∃ e, (scanLoop env src lines log).2 = .error e := by
  induction src generalizing lines log with
  | nil => simp at h
  | cons line rest ih =>
    unfold scanLoop
    by_cases h1 : stringsContains line styleLinkTag = true
    · simp only [h1, if_true]
      rcases hr : env.readFile styleFilename with ⟨c, _ | e⟩
      · rw [concatFileContent_ok env _ _ _ _ hr]
        apply ih
        rcases h with ⟨l, hl, hc, e, he⟩ | ⟨l, hl, hc1, hc2, e, he⟩
        · rw [hr] at he; cases he
        · rcases List.mem_cons.mp hl with hl | hl
          · subst hl; rw [h1] at hc1; cases hc1
          · exact Or.inr ⟨l, hl, hc1, hc2, e, he⟩
      · rw [concatFileContent_error env _ _ _ _ _ hr]
        exact ⟨e, rfl⟩
    · simp only [h1, if_false, Bool.false_eq_true]
      have hrest : (∃ l ∈ rest, stringsContains l styleLinkTag = true ∧
            ∃ e, (env.readFile styleFilename).2 = some e)
        ∨ (∃ l ∈ rest, stringsContains l styleLinkTag = false ∧ stringsContains l scriptTag = true ∧
            ∃ e, (env.readFile scriptFilename).2 = some e)
        ∨ (stringsContains line scriptTag = true ∧ ∃ e, (env.readFile scriptFilename).2 = some e) := by
        rcases h with ⟨l, hl, hc, e, he⟩ | ⟨l, hl, hc1, hc2, e, he⟩
        · rcases List.mem_cons.mp hl with hl | hl
          · subst hl; exact absurd hc h1
          · exact Or.inl ⟨l, hl, hc, e, he⟩
        · rcases List.mem_cons.mp hl with hl | hl
          · subst hl; exact Or.inr (Or.inr ⟨hc2, e, he⟩)
          · exact Or.inr (Or.inl ⟨l, hl, hc1, hc2, e, he⟩)
      by_cases h2 : stringsContains line scriptTag = true
      · simp only [h2, if_true]
        rcases hr : env.readFile scriptFilename with ⟨c, _ | e⟩
        · rw [concatFileContent_ok env _ _ _ _ hr]
          apply ih
          rcases hrest with h | h | ⟨_, e, he⟩
          · exact Or.inl h
          · exact Or.inr h
          · rw [hr] at he; cases he
        · rw [concatFileContent_error env _ _ _ _ _ hr]
          exact ⟨e, rfl⟩
      · simp only [h2, if_false, Bool.false_eq_true]
        apply ih
        rcases hrest with h | h | ⟨hc, _⟩
        · exact Or.inl h
        · exact Or.inr h
        · exact absurd hc h2

/-! ## Writing the destination and the whole run -/

theorem writeLoop_ok (env : Env) (hw : ∀ k, env.writeErr k = none)
    (lines : List GoString) (k : Nat) (log : List Event) :
    writeLoop env lines k log = (log ++ writesOf lines, .ok ()) := by
  induction lines generalizing k log with
  | nil => simp [writeLoop, writesOf]
  | cons line rest ih =>
    simp only [writeLoop, hw k, check, ih, writesOf, List.map_cons, List.append_assoc,
      List.singleton_append]

theorem writeCombinedFile_ok (env : Env) (hc : env.createErr = none)
    (hw : ∀ k, env.writeErr k = none) (lines : List GoString) (log : List Event) :
    writeCombinedFile env lines log
      = (log ++ Event.create outputFilename none :: writesOf lines
          ++ [Event.flush env.flushErr, Event.close outputFilename], .ok 1) := by
  simp [writeCombinedFile, hc, check, writeLoop_ok env hw]

/-- The run of `main` once the scan loop has returned `lines` and nothing
fails while the destination is written. -/
theorem main_of_scan (env : Env) (ho : env.openErr = none) (hc : env.createErr = none)
    (hw : ∀ k, env.writeErr k = none) (log : List Event) (lines : List GoString)
    (hscan : scanLoop env env.scanned [] [Event.osOpen indexFilename none] = (log, .ok lines)) :
    main env = ⟨log ++ Event.scanEnd env.scanErr :: Event.create outputFilename none
        :: writesOf lines
        ++ [Event.flush env.flushErr, Event.close outputFilename,
            Event.printf (report lines.length), Event.close indexFilename], none⟩ := by
  simp [main, ho, check, hscan, writeCombinedFile_ok env hc hw]

/-- The run of `main` when the scan loop panics. -/
theorem main_of_scan_error (env : Env) (ho : env.openErr = none) (log : List Event)
    (e : GoError)
    (hscan : scanLoop env env.scanned [] [Event.osOpen indexFilename none] = (log, .error e)) :
    main env = ⟨log ++ [Event.close indexFilename], some e⟩ := by
  simp [main, ho, check, hscan]

theorem writtenText_append (l₁ l₂ : List Event) :
    writtenText (l₁ ++ l₂) = writtenText l₁ ++ writtenText l₂ := by
  induction l₁ with
  | nil => rfl
  | cons ev rest ih =>
    cases ev with
    | writeString s err =>
      cases err with
      | none => simp [writtenText, ih]
      | some e => simp [writtenText, ih]
    | _ => simp [writtenText, ih]

theorem writtenText_writesOf (lines : List GoString) :
    writtenText (writesOf lines) = document lines := by
  induction lines with
  | nil => rfl
  | cons line rest ih =>
    simp only [writesOf, List.map_cons, writtenText, document, List.flatMap_cons] at ih ⊢
    rw [ih]

theorem writtenText_of_reads (added : List Event)
    (h : ∀ ev ∈ added, ∃ name err, ev = Event.readFile name err) : writtenText added = [] := by
  induction added with
  | nil => rfl
  | cons ev rest ih =>
    obtain ⟨name, err, hev⟩ := h ev (List.mem_cons_self _ _)
    subst hev
    simp only [writtenText]
    exact ih (fun ev hev => h ev (List.mem_cons_of_mem _ hev))

theorem handedText_append (l₁ l₂ : List Event) :
    handedText (l₁ ++ l₂) = handedText l₁ ++ handedText l₂ := by
  induction l₁ with
  | nil => rfl
  | cons ev rest ih =>
    cases ev with
    | writeString s err => simp [handedText, ih]
    | _ => simp [handedText, ih]

theorem handedText_writesOf (lines : List GoString) :
    handedText (writesOf lines) = document lines := by
  induction lines with
  | nil => rfl
  | cons line rest ih =>
    simp only [writesOf, List.map_cons, handedText, document, List.flatMap_cons] at ih ⊢
    rw [ih]

theorem handedText_of_reads (added : List Event)
    (h : ∀ ev ∈ added, ∃ name err, ev = Event.readFile name err) : handedText added = [] := by
  induction added with
  | nil => rfl
  | cons ev rest ih =>
    obtain ⟨name, err, hev⟩ := h ev (List.mem_cons_self _ _)
    subst hev
    simp only [handedText]
    exact ih (fun ev hev => h ev (List.mem_cons_of_mem _ hev))

/-- The text of a document with at least one line ends in a newline. -/
theorem document_ends_in_newline (lines : List GoString) (h : lines ≠ []) :
    ∃ t, document lines = t ++ [newline] := by
  induction lines with
  | nil => exact absurd rfl h
  | cons line rest ih =>
    cases rest with
    | nil => exact ⟨line, by simp [document]⟩
    | cons next more =>
      obtain ⟨t, ht⟩ := ih (by simp)
      refine ⟨line ++ [newline] ++ t, ?_⟩
      have hd : document (line :: next :: more)
          = line ++ [newline] ++ document (next :: more) := by
        simp [document]
      rw [hd, ht]
      simp

theorem count_document (lines : List GoString) (h : ∀ l ∈ lines, newline ∉ l) :
    stringsCount newline (document lines) = lines.length := by
  induction lines with
  | nil => rfl
  | cons line rest ih =>
    have h1 : List.count newline line = 0 :=
      List.count_eq_zero.mpr (h line (List.mem_cons_self _ _))
    have h2 := ih (fun l hl => h l (List.mem_cons_of_mem _ hl))
    simp only [stringsCount, document, List.flatMap_cons, List.count_append, List.length_cons,
      List.count_singleton_self] at h2 ⊢
    omega

/-- The printed line, spelled out: the count in decimal between the two fixed
parts of the format. -/
theorem report_text (n : Nat) :
    report n = "TimeDiff Combiner: Wrote ".toList ++ (Nat.repr n).toList
      ++ " lines to ./singlepage.html\n".toList := by
  have htail : " lines to ".toList ++ outputFilename ++ [newline]
      = " lines to ./singlepage.html\n".toList := by decide
  unfold report
  rw [← htail]
  simp only [List.append_assoc]

/-- A proper prefix of the text of a document holds fewer newline bytes than
the document has lines. -/
theorem proper_prefix_fewer_lines (lines : List GoString) (h : ∀ l ∈ lines, newline ∉ l)
    (p : GoString) (hp : p <+: document lines) (hne : p ≠ document lines) :
    stringsCount newline p < lines.length := by
  obtain ⟨q, hq⟩ := hp
  have hq_ne : q ≠ [] := by
    intro hnil
    rw [hnil, List.append_nil] at hq
    exact hne hq
  have hlines : lines ≠ [] := by
    intro hnil
    rw [hnil] at hq
    have : p ++ q = [] := hq
    simp only [List.append_eq_nil] at this
    exact hq_ne this.2
  obtain ⟨t, ht⟩ := document_ends_in_newline lines hlines
  rcases List.eq_nil_or_concat q with hnil | ⟨q', b, hb⟩
  · exact absurd hnil hq_ne
  · rw [List.concat_eq_append] at hb
    have heq : (p ++ q') ++ [b] = t ++ [newline] := by
      rw [List.append_assoc, ← hb, hq, ht]
    have hpt := (List.append_inj' heq rfl).1
    have hcount := count_document lines h
    rw [ht] at hcount
    simp only [stringsCount, List.count_append, List.count_singleton_self] at hcount ⊢
    have : List.count newline t = List.count newline p + List.count newline q' := by
      rw [← hpt, List.count_append]
    omega

/-- Source lines without a marker are appended as they are. -/
theorem scanLoop_plain_append (env : Env) (before rest : List GoString)
    (h : ∀ l ∈ before, isMarker l = false) (lines : List GoString) (log : List Event) :
    scanLoop env (before ++ rest) lines log = scanLoop env rest (lines ++ before) log := by
  induction before generalizing lines with
  | nil => simp
  | cons line more ih =>
    have hl := h line (List.mem_cons_self _ _)
    simp only [isMarker, Bool.or_eq_false_iff] at hl
    have hr : ∀ l ∈ more, isMarker l = false := fun l hl => h l (List.mem_cons_of_mem _ hl)
    simp [scanLoop, hl.1, hl.2, ih hr]

/-- One turn of the loop on a line with the stylesheet marker. -/
theorem scanLoop_style (env : Env) (css line : GoString) (rest lines : List GoString)
    (log : List Event) (hs : env.readFile styleFilename = (css, none))
    (hm : stringsContains line styleLinkTag = true) :
    scanLoop env (line :: rest) lines log
      = scanLoop env rest (lines ++ styleOpen :: stringsSplit newline css ++ [styleClose])
          (log ++ [Event.readFile styleFilename none]) := by
  simp [scanLoop, hm, concatFileContent_ok env _ _ _ _ hs]

/-- One turn of the loop on a line with the script marker only. -/
theorem scanLoop_script (env : Env) (js line : GoString) (rest lines : List GoString)
    (log : List Event) (hj : env.readFile scriptFilename = (js, none))
    (hs : stringsContains line styleLinkTag = false)
    (hm : stringsContains line scriptTag = true) :
    scanLoop env (line :: rest) lines log
      = scanLoop env rest (lines ++ scriptOpen :: stringsSplit newline js ++ [scriptClose])
          (log ++ [Event.readFile scriptFilename none]) := by
  simp [scanLoop, hs, hm, concatFileContent_ok env _ _ _ _ hj]

theorem not_mem_of_isMarker (m : GoString) (ls : List GoString) (hm : isMarker m = true)
    (h : ∀ l ∈ ls, isMarker l = false) : m ∉ ls := by
  intro hmem
  rw [h m hmem] at hm
  cases hm

theorem writeLoop_log (env : Env) (lines : List GoString) (k : Nat) (log : List Event) :
    ∃ added, (writeLoop env lines k log).1 = log ++ added
      ∧ ∀ ev ∈ added, touchesOutput ev = true := by
  induction lines generalizing k log with
  | nil => exact ⟨[], by simp [writeLoop]⟩
  | cons line rest ih =>
    unfold writeLoop
    cases hk : env.writeErr k with
    | some e =>
      exact ⟨[Event.writeString (line ++ [newline]) (some e)], by simp [touchesOutput, check]⟩
    | none =>
      simp only [check]
      obtain ⟨added, h, hall⟩ := ih (k + 1) (log ++ [Event.writeString (line ++ [newline]) none])
      refine ⟨Event.writeString (line ++ [newline]) none :: added, by simpa using h, ?_⟩
      intro ev hev
      rcases List.mem_cons.mp hev with h | h
      · subst h; rfl
      · exact hall ev h

theorem writeCombinedFile_log (env : Env) (lines : List GoString) (log : List Event) :
    ∃ added, (writeCombinedFile env lines log).1 = log ++ added
      ∧ ∀ ev ∈ added, touchesOutput ev = true := by
  unfold writeCombinedFile
  cases hc : env.createErr with
  | some e => exact ⟨[Event.create outputFilename (some e)], by simp [touchesOutput, check]⟩
  | none =>
    simp only [check]
    obtain ⟨added, h, hall⟩ := writeLoop_log env lines 0 (log ++ [Event.create outputFilename none])
    have hout : touchesOutput (Event.close outputFilename) = true := by simp [touchesOutput]
    rcases hres : writeLoop env lines 0 (log ++ [Event.create outputFilename none])
      with ⟨log', res⟩
    rw [hres] at h
    simp only at h
    subst h
    cases res with
    | error e =>
      refine ⟨Event.create outputFilename none :: added ++ [Event.close outputFilename],
        by simp, ?_⟩
      intro ev hev
      simp only [List.cons_append, List.mem_cons, List.mem_append, List.mem_singleton,
        List.not_mem_nil, or_false] at hev
      rcases hev with h | h | h
      · subst h; rfl
      · exact hall ev h
      · subst h; exact hout
    | ok u =>
      refine ⟨Event.create outputFilename none :: added
        ++ [Event.flush env.flushErr, Event.close outputFilename], by simp, ?_⟩
      intro ev hev
      simp only [List.cons_append, List.mem_cons, List.mem_append, List.mem_singleton,
        List.not_mem_nil, or_false] at hev
      rcases hev with h | h | h | h
      · subst h; rfl
      · exact hall ev h
      · subst h; rfl
      · subst h; exact hout

/-- The write loop asks the world for the results of `WriteString` only. -/
theorem writeLoop_congr (env other : Env) (hw : other.writeErr = env.writeErr)
    (lines : List GoString) (k : Nat) (log : List Event) :
    writeLoop other lines k log = writeLoop env lines k log := by
  induction lines generalizing k log with
  | nil => rfl
  | cons line rest ih => simp only [writeLoop, ih, hw]

/-- Writing the destination asks the world for the results of `os.Create`,
`WriteString` and `Flush` only. -/
theorem writeCombinedFile_congr (env other : Env) (hc : other.createErr = env.createErr)
    (hw : other.writeErr = env.writeErr) (hf : other.flushErr = env.flushErr)
    (lines : List GoString) (log : List Event) :
    writeCombinedFile other lines log = writeCombinedFile env lines log := by
  simp only [writeCombinedFile, writeLoop_congr env other hw, hc, hf]

/-! ## The claims -/

/-- C1: with both assets readable, the lines built by the scan loop of `main`
are the in-order concatenation, over the source lines, of what the
specification gives for each line (`expandLine`): the style wrapper around
the pieces of the stylesheet for a line with the stylesheet marker, else the
script wrapper around the pieces of the script for a line with the script
marker, else the line itself.  On the scenario of the specification the loop
builds exactly the nine expected lines, and these are what `main` writes. -/
theorem scanLoop_refines_expandLine :
    (∀ (env : Env) (css js : GoString),
      env.readFile styleFilename = (css, none) → env.readFile scriptFilename = (js, none) →
      ∀ (src : List GoString) (log : List Event),
        (scanLoop env src [] log).2 = .ok (src.flatMap (expandLine css js)))
    ∧ (scanLoop scenarioEnv scenarioLines [] [Event.osOpen indexFilename none]).2
        = .ok scenarioOutput
    ∧ scenarioOutput.length = 9
    ∧ writtenText (main scenarioEnv).log = document scenarioOutput := by
  refine ⟨?_, rfl, rfl, by decide⟩
  intro env css js hs hj src log
  rw [scanLoop_ok env css js hs hj]
  simp

theorem scanLoop_refines_expandLine_witness :
    scenarioEnv.readFile styleFilename = (scenarioCss, none)
    ∧ scenarioEnv.readFile scriptFilename = (scenarioJs, none)
    ∧ (scanLoop scenarioEnv scenarioLines [] []).2
        = .ok (scenarioLines.flatMap (expandLine scenarioCss scenarioJs)) :=
  ⟨rfl, rfl, scanLoop_refines_expandLine.1 scenarioEnv scenarioCss scenarioJs rfl rfl
    scenarioLines []⟩

/-- C2 (P2): when one line `m` holds the stylesheet marker and the lines
before and after it hold no marker, the scan loop builds the lines before
`m` unchanged, the opening style wrapper, the pieces of the stylesheet in
order, the closing style wrapper and the lines after `m` unchanged; that is
`n + 1` lines more than the source, `n` being the number of stylesheet
pieces.  The line `m` is not copied: it is none of the lines before or
after it and neither wrapper, so it can only recur as a line of the
stylesheet itself. -/
theorem style_marker_inlined (env : Env) (css m : GoString) (before after : List GoString)
    (hs : env.readFile styleFilename = (css, none))
    (hm : stringsContains m styleLinkTag = true)
    (hb : ∀ l ∈ before, isMarker l = false) (ha : ∀ l ∈ after, isMarker l = false)
    (log : List Event) :
    (scanLoop env (before ++ m :: after) [] log).2
        = .ok (before ++ styleOpen :: stringsSplit newline css ++ styleClose :: after)
    ∧ (before ++ styleOpen :: stringsSplit newline css ++ styleClose :: after).length
        = (before ++ m :: after).length + ((stringsSplit newline css).length + 1)
    ∧ m ∉ before ∧ m ≠ styleOpen ∧ m ≠ styleClose ∧ m ∉ after := by
  have hmark : isMarker m = true := by simp [isMarker, hm]
  refine ⟨?_, ?_, not_mem_of_isMarker m before hmark hb, ?_, ?_,
    not_mem_of_isMarker m after hmark ha⟩
  · rw [scanLoop_plain_append env before _ hb, scanLoop_style env css m after _ _ hs hm,
      scanLoop_plain env after ha]
    simp
  · simp only [List.length_append, List.length_cons]
    omega
  · intro h
    rw [h] at hm
    exact absurd hm (by decide)
  · intro h
    rw [h] at hm
    exact absurd hm (by decide)

theorem style_marker_inlined_witness :
    (scanLoop scenarioEnv (["<html><head>".toList] ++ styleLinkTag :: ["</head>".toList]) [] []).2
        = .ok (["<html><head>".toList] ++ styleOpen :: stringsSplit newline scenarioCss
            ++ styleClose :: ["</head>".toList])
    ∧ (["<html><head>".toList] ++ styleOpen :: stringsSplit newline scenarioCss
            ++ styleClose :: ["</head>".toList]).length
        = (["<html><head>".toList] ++ styleLinkTag :: ["</head>".toList]).length
            + ((stringsSplit newline scenarioCss).length + 1)
    ∧ styleLinkTag ∉ ["<html><head>".toList] ∧ styleLinkTag ≠ styleOpen
    ∧ styleLinkTag ≠ styleClose ∧ styleLinkTag ∉ ["</head>".toList] :=
  style_marker_inlined scenarioEnv scenarioCss styleLinkTag ["<html><head>".toList]
    ["</head>".toList] rfl (by decide) (by decide) (by decide) []

/-- C3 (P3): when one line `m` holds the script marker and not the
stylesheet marker, and the lines before and after it hold no marker, the
scan loop builds the lines before `m` unchanged, the opening script wrapper,
the pieces of the script in order, the closing script wrapper and the lines
after `m` unchanged; that is `n + 1` lines more than the source, `n` being
the number of script pieces. -/
theorem script_marker_inlined (env : Env) (js m : GoString) (before after : List GoString)
    (hj : env.readFile scriptFilename = (js, none))
    (hms : stringsContains m styleLinkTag = false)
    (hm : stringsContains m scriptTag = true)
    (hb : ∀ l ∈ before, isMarker l = false) (ha : ∀ l ∈ after, isMarker l = false)
    (log : List Event) :
    (scanLoop env (before ++ m :: after) [] log).2
        = .ok (before ++ scriptOpen :: stringsSplit newline js ++ scriptClose :: after)
    ∧ (before ++ scriptOpen :: stringsSplit newline js ++ scriptClose :: after).length
        = (before ++ m :: after).length + ((stringsSplit newline js).length + 1) := by
  refine ⟨?_, ?_⟩
  · rw [scanLoop_plain_append env before _ hb, scanLoop_script env js m after _ _ hj hms hm,
      scanLoop_plain env after ha]
    simp
  · simp only [List.length_append, List.length_cons]
    omega

theorem script_marker_inlined_witness :
    (scanLoop scenarioEnv (["<body>".toList] ++ scriptTag :: ["</body>".toList]) [] []).2
        = .ok (["<body>".toList] ++ scriptOpen :: stringsSplit newline scenarioJs
            ++ scriptClose :: ["</body>".toList])
    ∧ (["<body>".toList] ++ scriptOpen :: stringsSplit newline scenarioJs
            ++ scriptClose :: ["</body>".toList]).length
        = (["<body>".toList] ++ scriptTag :: ["</body>".toList]).length
            + ((stringsSplit newline scenarioJs).length + 1) :=
  script_marker_inlined scenarioEnv scenarioJs scriptTag ["<body>".toList]
    ["</body>".toList] rfl (by decide) (by decide) (by decide) (by decide) []

/-- C4 (P1): with both assets readable, the scan loop returns, and the source
lines that hold neither marker, taken in source order, form a subsequence of
the lines it built: each of them is there character for character and in
the same relative order. -/
theorem plain_lines_pass_through (env : Env) (css js : GoString)
    (hs : env.readFile styleFilename = (css, none)) (hj : env.readFile scriptFilename = (js, none))
    (src : List GoString) (log : List Event) :
    ∃ out, (scanLoop env src [] log).2 = .ok out
      ∧ List.Sublist (src.filter (fun l => !isMarker l)) out := by
  refine ⟨src.flatMap (expandLine css js), by rw [scanLoop_ok env css js hs hj]; simp, ?_⟩
  induction src with
  | nil => simp
  | cons line rest ih =>
    rw [List.flatMap_cons]
    cases hl : isMarker line with
    | false =>
      rw [List.filter_cons_of_pos (by simp [hl]), expandLine_plain css js line hl]
      exact List.Sublist.cons₂ line ih
    | true =>
      rw [List.filter_cons_of_neg (by simp [hl])]
      exact List.Sublist.trans ih (List.sublist_append_right _ _)

theorem plain_lines_pass_through_witness :
    ∃ out, (scanLoop scenarioEnv scenarioLines [] []).2 = .ok out
      ∧ List.Sublist (scenarioLines.filter (fun l => !isMarker l)) out :=
  plain_lines_pass_through scenarioEnv scenarioCss scenarioJs rfl rfl scenarioLines []

/-- C5 (P4): when no scanned line holds a marker, the scan loop returns the
source lines themselves and leaves the log as it was; no run of `main` on
such a document calls `os.ReadFile`, and its outcome is the same whatever
`os.ReadFile` would have answered; and when the base document opens and the
destination is created and written without error, the run is the explicit
sequence of calls below, the text written being every source line followed
by one newline. -/
theorem no_marker_identity (env : Env) (h : ∀ l ∈ env.scanned, isMarker l = false) :
    (∀ log, scanLoop env env.scanned [] log = (log, .ok env.scanned))
    ∧ (∀ name err, Event.readFile name err ∉ (main env).log)
    ∧ (∀ rf, main { env with readFile := rf } = main env)
    ∧ (env.openErr = none → env.createErr = none → (∀ k, env.writeErr k = none) →
        main env = ⟨Event.osOpen indexFilename none :: Event.scanEnd env.scanErr
            :: Event.create outputFilename none :: writesOf env.scanned
            ++ [Event.flush env.flushErr, Event.close outputFilename,
                Event.printf (report env.scanned.length), Event.close indexFilename], none⟩
        ∧ writtenText (main env).log = document env.scanned) := by
  have hscan : ∀ (e : Env), e.scanned = env.scanned → ∀ log,
      scanLoop e e.scanned [] log = (log, .ok e.scanned) := by
    intro e he log
    have := scanLoop_plain e e.scanned (by rw [he]; exact h) [] log
    simpa using this
  refine ⟨hscan env rfl, ?_, ?_, ?_⟩
  · intro name err hmem
    unfold main at hmem
    cases ho : env.openErr with
    | some e =>
      rw [ho] at hmem
      simp [check] at hmem
    | none =>
      rw [ho] at hmem
      simp only [check, hscan env rfl] at hmem
      obtain ⟨added, hlog, hall⟩ := writeCombinedFile_log env env.scanned
        ([Event.osOpen indexFilename none] ++ [Event.scanEnd env.scanErr])
      rcases hres : writeCombinedFile env env.scanned
        ([Event.osOpen indexFilename none] ++ [Event.scanEnd env.scanErr]) with ⟨log', res⟩
      rw [hres] at hlog hmem
      simp only at hlog
      subst hlog
      have hadd : Event.readFile name err ∉ added := by
        intro hin
        have := hall _ hin
        simp [touchesOutput] at this
      cases res with
      | error e => simp [hadd] at hmem
      | ok v => simp [hadd] at hmem
  · intro rf
    have hw := writeCombinedFile_congr env { env with readFile := rf } rfl rfl rfl
    have h1 := hscan { env with readFile := rf } rfl
    simp only [main, h1, hscan env rfl, hw]
  · intro ho hc hw
    have hm := main_of_scan env ho hc hw _ _ (hscan env rfl [Event.osOpen indexFilename none])
    refine ⟨by simpa using hm, ?_⟩
    rw [hm]
    simp [writtenText_append, writtenText, writtenText_writesOf]

theorem no_marker_identity_witness :
    (∀ log, scanLoop (quietEnv ["<html>".toList, "</html>".toList]
          ([], some GoError.errNotExist) ([], some GoError.errNotExist))
        ["<html>".toList, "</html>".toList] [] log
        = (log, .ok ["<html>".toList, "</html>".toList]))
    ∧ writtenText (main (quietEnv ["<html>".toList, "</html>".toList]
          ([], some GoError.errNotExist) ([], some GoError.errNotExist))).log
        = "<html>\n</html>\n".toList :=
  ⟨(no_marker_identity (quietEnv ["<html>".toList, "</html>".toList]
      ([], some GoError.errNotExist) ([], some GoError.errNotExist)) (by decide)).1,
   ((no_marker_identity (quietEnv ["<html>".toList, "</html>".toList]
      ([], some GoError.errNotExist) ([], some GoError.errNotExist)) (by decide)).2.2.2
      rfl rfl (fun _ => rfl)).2⟩

/-- C6 (P5): when the scanned lines hold no newline, both assets are readable
and opening the base document, creating the destination and every
`WriteString` succeed, `main` returns normally and prints once the line
`TimeDiff Combiner: Wrote n lines to ./singlepage.html`, `n` being the
decimal of `len(lines)`, and `lines` hold no newline.  When `Flush` succeeds
the destination holds exactly the `n` records, so `n` newline bytes.  When
`Flush` fails the same line is printed although the destination holds only a
proper prefix of that text, which has fewer than `n` newline bytes: the
printed count is then larger than the number of lines written.  On the
scenario of the specification the run prints 9 in both cases, with the whole
nine lines in the destination in the first and an incomplete destination in
the second. -/
theorem reported_count_and_destination :
    (∀ (env : Env) (css js : GoString),
      (∀ l ∈ env.scanned, newline ∉ l) →
      env.readFile styleFilename = (css, none) → env.readFile scriptFilename = (js, none) →
      env.openErr = none → env.createErr = none → (∀ k, env.writeErr k = none) →
      ∃ lines,
        (scanLoop env env.scanned [] [Event.osOpen indexFilename none]).2 = .ok lines
        ∧ (main env).panicked = none
        ∧ (main env).log.filter isReport
            = [Event.printf ("TimeDiff Combiner: Wrote ".toList ++ (Nat.repr lines.length).toList
                ++ " lines to ./singlepage.html\n".toList)]
        ∧ (∀ l ∈ lines, newline ∉ l)
        ∧ stringsCount newline (document lines) = lines.length
        ∧ (env.flushErr = none →
            destination (main env).log = Destination.whole (document lines))
        ∧ (∀ e, env.flushErr = some e →
            destination (main env).log = Destination.partly (document lines)
            ∧ ∀ p, p <+: document lines → p ≠ document lines →
                stringsCount newline p < lines.length))
    ∧ ((main scenarioEnv).log.filter isReport
          = [Event.printf "TimeDiff Combiner: Wrote 9 lines to ./singlepage.html\n".toList]
        ∧ destination (main scenarioEnv).log = Destination.whole (document scenarioOutput))
    ∧ ((main flushFailsEnv).panicked = none
        ∧ (main flushFailsEnv).log.filter isReport
          = [Event.printf "TimeDiff Combiner: Wrote 9 lines to ./singlepage.html\n".toList]
        ∧ destination (main flushFailsEnv).log
          = Destination.partly (document scenarioOutput)) := by
  refine ⟨?_, by decide, by decide⟩
  intro env css js hnl hs hj ho hc hw
  have hscan := scanLoop_ok env css js hs hj env.scanned [] [Event.osOpen indexFilename none]
  have hm := main_of_scan env ho hc hw _ _ hscan
  have hlines : ∀ l ∈ [] ++ env.scanned.flatMap (expandLine css js), newline ∉ l := by
    intro l hl
    simp only [List.nil_append, List.mem_flatMap] at hl
    obtain ⟨src, hsrc, hl⟩ := hl
    unfold expandLine at hl
    have hso : newline ∉ styleOpen := by decide
    have hsc : newline ∉ styleClose := by decide
    have hjo : newline ∉ scriptOpen := by decide
    have hjc : newline ∉ scriptClose := by decide
    split at hl
    · simp only [List.singleton_append, List.mem_cons, List.mem_append, List.mem_singleton,
        List.not_mem_nil, or_false] at hl
      rcases hl with (h | h) | h
      · rw [h]; exact hso
      · exact stringsSplit_no_sep newline css l h
      · rw [h]; exact hsc
    · split at hl
      · simp only [List.singleton_append, List.mem_cons, List.mem_append, List.mem_singleton,
          List.not_mem_nil, or_false] at hl
        rcases hl with (h | h) | h
        · rw [h]; exact hjo
        · exact stringsSplit_no_sep newline js l h
        · rw [h]; exact hjc
      · rw [List.mem_singleton.mp hl]
        exact hnl src hsrc
  have hreads : ∀ ev ∈ readsOf env.scanned, ∃ name err, ev = Event.readFile name err := by
    obtain ⟨added, hlog, hall⟩ := scanLoop_log env env.scanned [] [Event.osOpen indexFilename none]
    rw [hscan] at hlog
    simp only [List.append_cancel_left_eq] at hlog
    rw [hlog]
    exact hall
  have hfilter : (readsOf env.scanned).filter isReport = [] := by
    rw [List.filter_eq_nil_iff]
    intro ev hev
    obtain ⟨name, err, h⟩ := hreads ev hev
    subst h
    simp [isReport]
  have hwfilter : ∀ ls : List GoString, (writesOf ls).filter isReport = [] := by
    intro ls
    rw [List.filter_eq_nil_iff]
    intro ev hev
    simp only [writesOf, List.mem_map] at hev
    obtain ⟨l, _, h⟩ := hev
    subst h
    simp [isReport]
  have hcreate : Event.create outputFilename none ∈ (main env).log := by
    rw [hm]
    simp
  have hflush : ∀ err, Event.flush err ∈ (main env).log → err = env.flushErr := by
    intro err hmem
    rw [hm] at hmem
    simp only [List.mem_append, List.mem_cons, List.mem_singleton, List.not_mem_nil,
      or_false, reduceCtorEq, false_or, Event.flush.injEq] at hmem
    rcases hmem with (h | h) | h
    · obtain ⟨name, e, hev⟩ := hreads _ h
      cases hev
    · simp only [writesOf, List.mem_map] at h
      obtain ⟨l, _, hev⟩ := h
      cases hev
    · exact h
  have hhanded : handedText (main env).log
      = document ([] ++ env.scanned.flatMap (expandLine css js)) := by
    rw [hm]
    simp [handedText_append, handedText, handedText_writesOf,
      handedText_of_reads _ hreads]
  refine ⟨_, by rw [hscan], by rw [hm], ?_, hlines, count_document _ hlines, ?_, ?_⟩
  · rw [hm, report_text]
    simp [List.filter_append, List.filter_cons, hfilter, hwfilter, isReport]
  · intro hf
    have hin : Event.flush none ∈ (main env).log := by
      rw [hm, hf]
      simp
    simp only [destination, hcreate, hin, if_true, hhanded]
  · intro e hf
    have hnot : Event.flush none ∉ (main env).log := by
      intro hin
      have := hflush none hin
      rw [hf] at this
      cases this
    refine ⟨by simp only [destination, hcreate, hnot, if_true, if_false, hhanded], ?_⟩
    intro p hp hne
    exact proper_prefix_fewer_lines _ hlines p hp hne

theorem reported_count_and_destination_witness :
    ∃ lines,
      (scanLoop (quietEnv ["<p>".toList, "</p>".toList] ([], none) ([], none))
          ["<p>".toList, "</p>".toList] [] [Event.osOpen indexFilename none]).2 = .ok lines
      ∧ (main (quietEnv ["<p>".toList, "</p>".toList] ([], none) ([], none))).panicked = none
      ∧ (main (quietEnv ["<p>".toList, "</p>".toList] ([], none) ([], none))).log.filter isReport
          = [Event.printf ("TimeDiff Combiner: Wrote ".toList ++ (Nat.repr lines.length).toList
              ++ " lines to ./singlepage.html\n".toList)]
      ∧ (∀ l ∈ lines, newline ∉ l)
      ∧ stringsCount newline (document lines) = lines.length
      ∧ ((quietEnv ["<p>".toList, "</p>".toList] ([], none) ([], none)).flushErr = none →
          destination (main (quietEnv ["<p>".toList, "</p>".toList] ([], none) ([], none))).log
            = Destination.whole (document lines))
      ∧ (∀ e, (quietEnv ["<p>".toList, "</p>".toList] ([], none) ([], none)).flushErr = some e →
          destination (main (quietEnv ["<p>".toList, "</p>".toList] ([], none) ([], none))).log
            = Destination.partly (document lines)
          ∧ ∀ p, p <+: document lines → p ≠ document lines →
              stringsCount newline p < lines.length) :=
  reported_count_and_destination.1 (quietEnv ["<p>".toList, "</p>".toList] ([], none) ([], none))
    [] [] (by decide) rfl rfl rfl rfl (fun _ => rfl)

/-- When the scan loop panics, the value is the error of an `os.ReadFile`
call recorded in the log. -/
theorem scanLoop_error_is_read (env : Env) (src lines : List GoString) (log : List Event)
    (e : GoError) (h : (scanLoop env src lines log).2 = .error e) :
    ∃ name, (env.readFile name).2 = some e
      ∧ Event.readFile name (some e) ∈ (scanLoop env src lines log).1 := by
  induction src generalizing lines log with
  | nil => simp [scanLoop] at h
  | cons line rest ih =>
    unfold scanLoop at h ⊢
    by_cases h1 : stringsContains line styleLinkTag = true
    · simp only [h1, if_true] at h ⊢
      rcases hr : env.readFile styleFilename with ⟨c, _ | e'⟩
      · rw [concatFileContent_ok env _ _ _ _ hr] at h ⊢
        exact ih _ _ h
      · rw [concatFileContent_error env _ _ _ _ _ hr] at h ⊢
        simp only [Except.error.injEq] at h
        subst h
        exact ⟨styleFilename, by rw [hr], by simp⟩
    · simp only [h1, if_false, Bool.false_eq_true] at h ⊢
      by_cases h2 : stringsContains line scriptTag = true
      · simp only [h2, if_true] at h ⊢
        rcases hr : env.readFile scriptFilename with ⟨c, _ | e'⟩
        · rw [concatFileContent_ok env _ _ _ _ hr] at h ⊢
          exact ih _ _ h
        · rw [concatFileContent_error env _ _ _ _ _ hr] at h ⊢
          simp only [Except.error.injEq] at h
          subst h
          exact ⟨scriptFilename, by rw [hr], by simp⟩
      · simp only [h2, if_false, Bool.false_eq_true] at h ⊢
        exact ih _ _ h

/-- C7 (P6): when a scanned line holds the stylesheet marker and `style.css`
cannot be read, or a scanned line holds the script marker without the
stylesheet marker and `script.js` cannot be read, `main` panics; its log
holds no success line and no call that creates, writes, flushes or closes
the destination, so the destination is as it was before the run; and when
the base document had opened, the panic value is the error of an
`os.ReadFile` call made by the scan loop. -/
theorem unreadable_asset_aborts_before_create (env : Env)
    (h : (∃ l ∈ env.scanned, stringsContains l styleLinkTag = true ∧
            ∃ e, (env.readFile styleFilename).2 = some e)
        ∨ (∃ l ∈ env.scanned, stringsContains l styleLinkTag = false ∧
            stringsContains l scriptTag = true ∧
            ∃ e, (env.readFile scriptFilename).2 = some e)) :
    (∃ e, (main env).panicked = some e
      ∧ (env.openErr = none →
          ∃ name, (env.readFile name).2 = some e
            ∧ Event.readFile name (some e) ∈ (main env).log))
    ∧ (∀ ev ∈ (main env).log, touchesOutput ev = false ∧ isReport ev = false) := by
  have hclose : touchesOutput (Event.close indexFilename) = false := by decide
  cases ho : env.openErr with
  | some e0 =>
    have hm : main env = ⟨[Event.osOpen indexFilename (some e0)], some e0⟩ := by
      simp [main, ho, check]
    rw [hm]
    refine ⟨⟨e0, rfl, fun h => by cases h⟩, ?_⟩
    intro ev hev
    rw [List.mem_singleton.mp hev]
    exact ⟨rfl, rfl⟩
  | none =>
    obtain ⟨e, he⟩ := scanLoop_fails env env.scanned h [] [Event.osOpen indexFilename none]
    obtain ⟨added, hlog, hall⟩ :=
      scanLoop_log env env.scanned [] [Event.osOpen indexFilename none]
    obtain ⟨name, hname, hin⟩ := scanLoop_error_is_read env env.scanned [] _ e he
    rcases hres : scanLoop env env.scanned [] [Event.osOpen indexFilename none]
      with ⟨log', res⟩
    rw [hres] at he hlog hin
    simp only at he hlog hin
    subst he
    have hm := main_of_scan_error env ho log' e hres
    rw [hm]
    refine ⟨⟨e, rfl, fun _ => ⟨name, hname, List.mem_append_left _ hin⟩⟩, ?_⟩
    intro ev hev
    rw [hlog] at hev
    simp only [List.mem_append, List.mem_singleton, List.mem_cons, List.not_mem_nil,
      or_false] at hev
    rcases hev with (h | h) | h
    · rw [h]; exact ⟨rfl, rfl⟩
    · obtain ⟨n, err, hn⟩ := hall ev h
      rw [hn]; exact ⟨rfl, rfl⟩
    · rw [h]; exact ⟨hclose, rfl⟩

theorem unreadable_asset_aborts_before_create_witness :
    (∃ e, (main (quietEnv scenarioLines ([], some GoError.errNotExist) (scenarioJs, none))).panicked
        = some e
      ∧ ((quietEnv scenarioLines ([], some GoError.errNotExist) (scenarioJs, none)).openErr = none →
          ∃ name, ((quietEnv scenarioLines ([], some GoError.errNotExist)
              (scenarioJs, none)).readFile name).2 = some e
            ∧ Event.readFile name (some e)
              ∈ (main (quietEnv scenarioLines ([], some GoError.errNotExist)
                  (scenarioJs, none))).log))
    ∧ (∀ ev ∈ (main (quietEnv scenarioLines ([], some GoError.errNotExist) (scenarioJs, none))).log,
        touchesOutput ev = false ∧ isReport ev = false) :=
  unreadable_asset_aborts_before_create
    (quietEnv scenarioLines ([], some GoError.errNotExist) (scenarioJs, none))
    (Or.inl ⟨styleLinkTag, by decide, by decide, GoError.errNotExist, rfl⟩)

theorem scanLoop_checked (env : Env) (src lines : List GoString) (log : List Event)
    (out : List GoString) (hlog : ∀ ev ∈ log, checkedError ev = none)
    (h : (scanLoop env src lines log).2 = .ok out) :
    ∀ ev ∈ (scanLoop env src lines log).1, checkedError ev = none := by
  induction src generalizing lines log with
  | nil => simpa [scanLoop] using hlog
  | cons line rest ih =>
    have hstep : ∀ name, ∀ ev ∈ log ++ [Event.readFile name none], checkedError ev = none := by
      intro name ev hev
      rcases List.mem_append.mp hev with h | h
      · exact hlog ev h
      · rw [List.mem_singleton.mp h]; rfl
    unfold scanLoop at h ⊢
    by_cases h1 : stringsContains line styleLinkTag = true
    · simp only [h1, if_true] at h ⊢
      rcases hr : env.readFile styleFilename with ⟨c, _ | e⟩
      · rw [concatFileContent_ok env _ _ _ _ hr] at h ⊢
        exact ih _ _ (hstep styleFilename) h
      · rw [concatFileContent_error env _ _ _ _ _ hr] at h
        cases h
    · simp only [h1, if_false, Bool.false_eq_true] at h ⊢
      by_cases h2 : stringsContains line scriptTag = true
      · simp only [h2, if_true] at h ⊢
        rcases hr : env.readFile scriptFilename with ⟨c, _ | e⟩
        · rw [concatFileContent_ok env _ _ _ _ hr] at h ⊢
          exact ih _ _ (hstep scriptFilename) h
        · rw [concatFileContent_error env _ _ _ _ _ hr] at h
          cases h
      · simp only [h2, if_false, Bool.false_eq_true] at h ⊢
        exact ih _ _ hlog h

theorem writeLoop_checked (env : Env) (lines : List GoString) (k : Nat) (log : List Event)
    (hlog : ∀ ev ∈ log, checkedError ev = none)
    (h : (writeLoop env lines k log).2 = .ok ()) :
    ∀ ev ∈ (writeLoop env lines k log).1, checkedError ev = none := by
  induction lines generalizing k log with
  | nil => simpa [writeLoop] using hlog
  | cons line rest ih =>
    unfold writeLoop at h ⊢
    cases hk : env.writeErr k with
    | some e =>
      rw [hk] at h
      simp [check] at h
    | none =>
      rw [hk] at h
      simp only [check] at h ⊢
      apply ih _ _ _ h
      intro ev hev
      rcases List.mem_append.mp hev with h | h
      · exact hlog ev h
      · rw [List.mem_singleton.mp h]; rfl

/-- A run that returns normally has met no error in any call whose result is
handed to `check`: an error of `os.Open`, `os.ReadFile`, `os.Create` or
`WriteString` always ends the run in a panic. -/
theorem checked_errors_abort (env : Env) (h : (main env).panicked = none) :
    ∀ ev ∈ (main env).log, checkedError ev = none := by
  unfold main at h ⊢
  cases ho : env.openErr with
  | some e =>
    rw [ho] at h
    simp [check] at h
  | none =>
    rw [ho] at h
    simp only [check] at h ⊢
    have h0 : ∀ ev ∈ [Event.osOpen indexFilename none], checkedError ev = none := by
      intro ev hev
      rw [List.mem_singleton.mp hev]; rfl
    have hs := scanLoop_checked env env.scanned [] [Event.osOpen indexFilename none]
    rcases hres : scanLoop env env.scanned [] [Event.osOpen indexFilename none]
      with ⟨log1, _ | lines⟩
    · rw [hres] at h
      simp at h
    · rw [hres] at h hs
      simp only at h hs ⊢
      have h1 := hs lines h0 rfl
      unfold writeCombinedFile at h ⊢
      cases hc : env.createErr with
      | some e =>
        rw [hc] at h
        simp [check] at h
      | none =>
        rw [hc] at h
        simp only [check] at h ⊢
        have hw := writeLoop_checked env lines 0
          (log1 ++ [Event.scanEnd env.scanErr] ++ [Event.create outputFilename none])
        rcases hres2 : writeLoop env lines 0
          (log1 ++ [Event.scanEnd env.scanErr] ++ [Event.create outputFilename none])
          with ⟨log2, _ | u⟩
        · rw [hres2] at h
          simp at h
        · rw [hres2] at hw
          simp only at hw ⊢
          have h2 := hw (by
            intro ev hev
            simp only [List.mem_append, List.mem_singleton] at hev
            rcases hev with (h | h) | h
            · exact h1 ev h
            · rw [h]; rfl
            · rw [h]; rfl) trivial
          intro ev hev
          simp only [List.mem_append, List.mem_cons, List.mem_singleton, List.not_mem_nil,
            or_false] at hev
          rcases hev with (h | h | h) | h | h
          · exact h2 ev h
          · rw [h]; rfl
          · rw [h]; rfl
          · rw [h]; rfl
          · rw [h]; rfl

/-- C8, the code at the failing inputs: when `Flush` fails the run still
returns normally and prints the success line for 9 lines; when the scanner
stops on a line that is too long the run still returns normally, writes the
one line scanned before it and prints the success line for 1 line. -/
theorem unchecked_errors_report_success :
    ((main flushFailsEnv).panicked = none
      ∧ Event.flush (some GoError.errNoSpace) ∈ (main flushFailsEnv).log
      ∧ (main flushFailsEnv).log.filter isReport = [Event.printf (report 9)])
    ∧ ((main scanFailsEnv).panicked = none
      ∧ Event.scanEnd (some GoError.errTooLong) ∈ (main scanFailsEnv).log
      ∧ writtenText (main scanFailsEnv).log = "<html><head>\n".toList
      ∧ (main scanFailsEnv).log.filter isReport = [Event.printf (report 1)]) := by
  decide

theorem stringsContains_surrounded (tag before after : GoString) :
    stringsContains (before ++ tag ++ after) tag = true :=
  (stringsContains_iff _ _).mpr ⟨before, after, rfl⟩

/-- C9: with both assets readable, one turn of the scan loop on a line that
holds both markers appends the stylesheet expansion only and reads
`style.css` only; on a line made of the stylesheet marker inside any
surrounding text it appends the same stylesheet expansion, whatever that
text is; and on a line made of the script marker inside any surrounding
text, the line holding no stylesheet marker, it appends the script
expansion, whatever that text is.  Nothing of the line itself is appended. -/
theorem style_precedence_whole_line (env : Env) (css js : GoString)
    (hs : env.readFile styleFilename = (css, none)) (hj : env.readFile scriptFilename = (js, none))
    (rest lines : List GoString) (log : List Event) :
    (∀ line, stringsContains line styleLinkTag = true → stringsContains line scriptTag = true →
      scanLoop env (line :: rest) lines log
        = scanLoop env rest (lines ++ styleOpen :: stringsSplit newline css ++ [styleClose])
            (log ++ [Event.readFile styleFilename none]))
    ∧ (∀ before after,
      scanLoop env ((before ++ styleLinkTag ++ after) :: rest) lines log
        = scanLoop env rest (lines ++ styleOpen :: stringsSplit newline css ++ [styleClose])
            (log ++ [Event.readFile styleFilename none]))
    ∧ (∀ before after, stringsContains (before ++ scriptTag ++ after) styleLinkTag = false →
      scanLoop env ((before ++ scriptTag ++ after) :: rest) lines log
        = scanLoop env rest (lines ++ scriptOpen :: stringsSplit newline js ++ [scriptClose])
            (log ++ [Event.readFile scriptFilename none])) :=
  ⟨fun line h1 _ => scanLoop_style env css line rest lines log hs h1,
   fun before after =>
    scanLoop_style env css _ rest lines log hs (stringsContains_surrounded _ before after),
   fun before after h1 =>
    scanLoop_script env js _ rest lines log hj h1 (stringsContains_surrounded _ before after)⟩

theorem style_precedence_whole_line_witness :
    scanLoop scenarioEnv [styleLinkTag ++ scriptTag] [] []
      = ([Event.readFile styleFilename none],
          .ok (styleOpen :: stringsSplit newline scenarioCss ++ [styleClose])) :=
  (style_precedence_whole_line scenarioEnv scenarioCss scenarioJs rfl rfl [] [] []).1
    (styleLinkTag ++ scriptTag) (by decide) (by decide)

/-- C10: when `os.ReadFile` gives the content `c`, `concatFileContent`
returns the given lines followed by the pieces of `c` split on the newline
byte; joining the pieces with the newline byte gives `c` back, and there is
one piece more than there are newline bytes in `c`.  So an empty asset gives
the single empty piece, an asset that ends in a newline gives a last empty
piece, which the scan loop puts right before the closing wrapper, and a
marker line is replaced by at least three lines. -/
theorem concatFileContent_split_roundtrip :
    (∀ (env : Env) (L : List GoString) (c name : GoString) (log : List Event),
      env.readFile name = (c, none) →
      concatFileContent env L name log
        = (log ++ [Event.readFile name none], .ok (L ++ stringsSplit newline c)))
    ∧ (∀ c : GoString, stringsJoin newline (stringsSplit newline c) = c
        ∧ (stringsSplit newline c).length = stringsCount newline c + 1)
    ∧ stringsSplit newline [] = [[]]
    ∧ (∀ c : GoString, stringsSplit newline (c ++ [newline]) = stringsSplit newline c ++ [[]])
    ∧ (∀ (env : Env) (c line : GoString) (log : List Event),
        env.readFile styleFilename = (c ++ [newline], none) →
        stringsContains line styleLinkTag = true →
        (scanLoop env [line] [] log).2
          = .ok (styleOpen :: stringsSplit newline c ++ [[], styleClose]))
    ∧ (∀ (env : Env) (c line : GoString) (log : List Event),
        env.readFile scriptFilename = (c ++ [newline], none) →
        stringsContains line styleLinkTag = false → stringsContains line scriptTag = true →
        (scanLoop env [line] [] log).2
          = .ok (scriptOpen :: stringsSplit newline c ++ [[], scriptClose]))
    ∧ (∀ (env : Env) (c line : GoString) (log : List Event),
        env.readFile styleFilename = (c, none) → stringsContains line styleLinkTag = true →
        ∃ out, (scanLoop env [line] [] log).2 = .ok out ∧ 3 ≤ out.length)
    ∧ (∀ (env : Env) (c line : GoString) (log : List Event),
        env.readFile scriptFilename = (c, none) →
        stringsContains line styleLinkTag = false → stringsContains line scriptTag = true →
        ∃ out, (scanLoop env [line] [] log).2 = .ok out ∧ 3 ≤ out.length) := by
  refine ⟨?_, ?_, rfl, stringsSplit_append_sep newline, ?_, ?_, ?_, ?_⟩
  · intro env L c name log h
    exact concatFileContent_ok env L name c log h
  · intro c
    exact ⟨stringsJoin_stringsSplit newline c, stringsSplit_length newline c⟩
  · intro env c line log hs hm
    rw [scanLoop_style env _ line [] [] log hs hm, stringsSplit_append_sep]
    simp [scanLoop]
  · intro env c line log hj hs hm
    rw [scanLoop_script env _ line [] [] log hj hs hm, stringsSplit_append_sep]
    simp [scanLoop]
  · intro env c line log hs hm
    rw [scanLoop_style env c line [] [] log hs hm]
    refine ⟨_, rfl, ?_⟩
    have := stringsSplit_length newline c
    simp only [List.nil_append, List.length_cons, List.length_append, List.length_nil]
    omega
  · intro env c line log hj hs hm
    rw [scanLoop_script env c line [] [] log hj hs hm]
    refine ⟨_, rfl, ?_⟩
    have := stringsSplit_length newline c
    simp only [List.nil_append, List.length_cons, List.length_append, List.length_nil]
    omega

theorem concatFileContent_split_roundtrip_witness :
    concatFileContent scenarioEnv [styleOpen] styleFilename []
        = ([Event.readFile styleFilename none], .ok [styleOpen, scenarioCss])
    ∧ (scanLoop (quietEnv [styleLinkTag] ("a\n".toList, none) ([], none)) [styleLinkTag] [] []).2
        = .ok [styleOpen, "a".toList, [], styleClose]
    ∧ (scanLoop (quietEnv [scriptTag] ([], none) ([], none)) [scriptTag] [] []).2
        = .ok [scriptOpen, [], scriptClose] :=
  ⟨concatFileContent_split_roundtrip.1 scenarioEnv [styleOpen] scenarioCss styleFilename [] rfl,
   concatFileContent_split_roundtrip.2.2.2.2.1
    (quietEnv [styleLinkTag] ("a\n".toList, none) ([], none)) "a".toList styleLinkTag [] rfl
    (by decide),
   rfl⟩

end Combiner
